import Mathlib

/-!
Shallow embedding of the technical-indicator calculation engine of
`src/polygon-ai/src/functions/functions.js` (the `calculateSMA`,
`calculateEMA`, `calculateRSI`, `calculateMACD` helpers and the
numeric cores of `getBollingerBands` and `getATR`).

Prices are modelled as exact rationals (reals for the Bollinger code,
whose source uses `Math.sqrt`); JavaScript numbers behave as exact
arithmetic on these inputs apart from rounding, which none of the
claims is about.  Periods are modelled as integers so that the
non-positive-period validation branches are faithfully represented.
Thrown JavaScript errors become `Except` error values, one constructor
per validation message in the source.
-/

namespace Polygon

/-- The validation failures thrown by the source functions:
`"Invalid prices array"`, `"Invalid period"`, the MACD-specific
`"Periods must be positive numbers"`, `"Slow period must be greater
than fast period"`, `"Not enough price data"` and `"Insufficient data
to calculate signal line"`, and the per-element price check. -/
inductive CalcError where
  | emptySeries
  | invalidPrice
  | invalidPeriod
  | invalidOrdering
  | insufficientData
deriving DecidableEq, Repr

instance {ε α : Type} [DecidableEq ε] [DecidableEq α] : DecidableEq (Except ε α) :=
  fun a b =>
    match a, b with
    | .ok x, .ok y => decidable_of_iff (x = y) (by simp)
    | .error e, .error f => decidable_of_iff (e = f) (by simp)
    | .ok _, .error _ => isFalse (by simp)
    | .error _, .ok _ => isFalse (by simp)

/-- Arithmetic mean of a list. -/
def mean {K : Type} [DivisionRing K] (l : List K) : K := l.sum / (l.length : K)

/-- Loop body of `calculateSMA` (functions.js:996-1006): for each window
end `i` from `period-1` to the end, the sum of `prices[i-period+1 .. i]`
divided by `period`.  Output position `j` holds the window starting at
input index `j`. -/
def smaCore (prices : List ℚ) (p : ℕ) : List ℚ :=
  (List.range (prices.length + 1 - p)).map (fun j =>
    ((prices.drop j).take p).sum / p)

/-- `calculateSMA` (functions.js:984-1009): rejects an empty array, then
a period that is non-positive or exceeds the array length, then averages
each sliding window. -/
def calculateSMA (prices : List ℚ) (period : ℤ) : Except CalcError (List ℚ) :=
  if prices = [] then .error .emptySeries
  else if period ≤ 0 ∨ (prices.length : ℤ) < period then .error .invalidPeriod
  else .ok (smaCore prices period.toNat)

/-- Loop body of `calculateEMA` (functions.js:1036-1044): the seed is the
SMA of the first `period` prices, and each later value is
`(price - ema) * multiplier + ema` with `multiplier = 2/(period+1)`. -/
def emaCore (prices : List ℚ) (p : ℕ) : List ℚ :=
  (prices.drop p).scanl
    (fun ema price => (price - ema) * (2 / ((p : ℚ) + 1)) + ema)
    ((prices.take p).sum / p)

/-- `calculateEMA` (functions.js:1017-1047): same validation as
`calculateSMA`, then the seeded left-to-right recurrence. -/
def calculateEMA (prices : List ℚ) (period : ℤ) : Except CalcError (List ℚ) :=
  if prices = [] then .error .emptySeries
  else if period ≤ 0 ∨ (prices.length : ℤ) < period then .error .invalidPeriod
  else .ok (emaCore prices period.toNat)

/-- Day-over-day changes (functions.js:1069-1078): `prices[i] - prices[i-1]`
for `i = 1 .. len-1`. -/
def priceChanges (prices : List ℚ) : List ℚ :=
  (prices.zip (prices.drop 1)).map (fun pr => pr.2 - pr.1)

/-- The `gains` array of `calculateRSI`: positive part of each change. -/
def gainsOf (prices : List ℚ) : List ℚ :=
  (priceChanges prices).map (fun c => if 0 < c then c else 0)

/-- The `losses` array of `calculateRSI`: negated negative part of each
change. -/
def lossesOf (prices : List ℚ) : List ℚ :=
  (priceChanges prices).map (fun c => if c < 0 then -c else 0)

/-- Loop body of `calculateRSI` (functions.js:1081-1092): for each window
end `i` from `period` to `gains.length - 1` (here `k = i - period`), the
averages are over `gains[i-period .. i-1]` and `losses[i-period .. i-1]`;
a zero average loss yields `100`, otherwise `100 - 100/(1 + rs)` with
`rs = avgGain / avgLoss`. -/
def rsiCore (prices : List ℚ) (p : ℕ) : List ℚ :=
  (List.range ((gainsOf prices).length - p)).map (fun k =>
    if (((lossesOf prices).drop k).take p).sum / p = 0 then 100
    else 100 - 100 / (1 + ((((gainsOf prices).drop k).take p).sum / p)
      / ((((lossesOf prices).drop k).take p).sum / p)))

/-- `calculateRSI` (functions.js:1055-1094): rejects an empty array, then
a period with `period <= 0` or `period > prices.length - 1`, then computes
the sliding-window RSI values. -/
def calculateRSI (prices : List ℚ) (period : ℤ) : Except CalcError (List ℚ) :=
  if prices = [] then .error .emptySeries
  else if period ≤ 0 ∨ (prices.length : ℤ) - 1 < period then .error .invalidPeriod
  else .ok (rsiCore prices period.toNat)

theorem getElem?_map_range {α : Type} (f : ℕ → α) {n j : ℕ} (hj : j < n) :
    ((List.range n).map f)[j]? = some (f j) := by
  simp [List.getElem?_map, List.getElem?_range, hj]

theorem window_length {α : Type} (prices : List α) (p j : ℕ)
    (hj : j < prices.length + 1 - p) :
    ((prices.drop j).take p).length = p := by
  simp only [List.length_take, List.length_drop]
  omega

theorem scanl_getD_succ {α β : Type} (f : β → α → β) (b : β) (l : List α)
    (d : β) (da : α) (k : ℕ) (hk : k < l.length) :
    (l.scanl f b).getD (k + 1) d = f ((l.scanl f b).getD k d) (l.getD k da) := by
  have h1 : k + 1 < (l.scanl f b).length := by
    rw [List.length_scanl]
    omega
  rw [List.getD_eq_getElem _ _ h1, List.getElem_succ_scanl h1,
    List.getD_eq_getElem _ _ (by rw [List.length_scanl]; omega),
    List.getD_eq_getElem _ _ hk]

theorem getD_drop {α : Type} [Inhabited α] (l : List α) (n k : ℕ) (d : α)
    (h : n + k < l.length) :
    (l.drop n).getD k d = l.getD (n + k) d := by
  have hk : k < (l.drop n).length := by
    rw [List.length_drop]
    omega
  rw [List.getD_eq_getElem _ _ hk, List.getD_eq_getElem _ _ h,
    List.getElem_drop]

/-- Claim C1: for every price series `prices` and integer `period` with
`0 < period ≤ len prices`, `calculateSMA` succeeds and returns a series of
length `len prices - period + 1` whose element `j` is the arithmetic mean
of `prices[j .. j+period-1]`; in particular
`calculateSMA [1,2,3,4,5] 3 = [2,3,4]`. -/
theorem sma_spec :
    (∀ (prices : List ℚ) (period : ℤ), 0 < period → period ≤ (prices.length : ℤ) →
      ∃ out, calculateSMA prices period = .ok out ∧
        (out.length : ℤ) = (prices.length : ℤ) - period + 1 ∧
        ∀ j : ℕ, j < out.length →
          out[j]? = some (mean ((prices.drop j).take period.toNat))) ∧
    calculateSMA [1, 2, 3, 4, 5] 3 = .ok [2, 3, 4] := by
  constructor
  · intro prices period h1 h2
    have hne : prices ≠ [] := by
      intro h
      subst h
      simp only [List.length_nil, Nat.cast_zero] at h2
      omega
    refine ⟨smaCore prices period.toNat, ?_, ?_, ?_⟩
    · unfold calculateSMA
      rw [if_neg hne, if_neg (by omega)]
    · simp only [smaCore, List.length_map, List.length_range]
      omega
    · intro j hj
      simp only [smaCore, List.length_map, List.length_range] at hj
      rw [smaCore, getElem?_map_range _ hj]
      rw [mean, window_length prices period.toNat j hj]
  · unfold calculateSMA
    rw [if_neg (by decide), if_neg (by decide)]
    show Except.ok (smaCore [1, 2, 3, 4, 5] 3) = _
    norm_num [smaCore, List.range_succ]

theorem sma_spec_witness :
    0 < (3 : ℤ) ∧ (3 : ℤ) ≤ (([1, 2, 3, 4, 5] : List ℚ).length : ℤ) ∧
    (∃ out, calculateSMA [1, 2, 3, 4, 5] 3 = .ok out ∧
      (out.length : ℤ) = (([1, 2, 3, 4, 5] : List ℚ).length : ℤ) - 3 + 1 ∧
      ∀ j : ℕ, j < out.length →
        out[j]? = some (mean ((([1, 2, 3, 4, 5] : List ℚ).drop j).take (3 : ℤ).toNat))) :=
  ⟨by decide, by decide, sma_spec.1 [1, 2, 3, 4, 5] 3 (by decide) (by decide)⟩

/-- Claim C2: for every price series and integer period with
`0 < period ≤ len prices`, `calculateEMA` returns a series of length
`len prices - period + 1` whose first element is the SMA of the first
`period` prices (aligned at input index `period-1`) and whose later
elements satisfy `ema[k] = (price[period-1+k] - ema[k-1]) * (2/(period+1))
+ ema[k-1]`; for `prices = [1,2,3,4,5]`, `period = 3` the first output is
`2` and the second is `3`. -/
theorem ema_spec :
    (∀ (prices : List ℚ) (period : ℤ), 0 < period → period ≤ (prices.length : ℤ) →
      ∃ out, calculateEMA prices period = .ok out ∧
        (out.length : ℤ) = (prices.length : ℤ) - period + 1 ∧
        out[0]? = some (mean (prices.take period.toNat)) ∧
        ∀ k : ℕ, k + 1 < out.length →
          out[k + 1]? = some ((prices.getD (period.toNat + k) 0 - out.getD k 0)
            * (2 / ((period : ℚ) + 1)) + out.getD k 0)) ∧
    (∃ out5, calculateEMA [1, 2, 3, 4, 5] 3 = .ok out5 ∧
      out5[0]? = some 2 ∧ out5[1]? = some 3) := by
  constructor
  · intro prices period h1 h2
    have hne : prices ≠ [] := by
      intro h
      subst h
      simp only [List.length_nil, Nat.cast_zero] at h2
      omega
    have hcast : (period.toNat : ℚ) = ((period : ℤ) : ℚ) := by
      rw [← Int.cast_natCast]
      exact congrArg _ (Int.toNat_of_nonneg h1.le)
    refine ⟨emaCore prices period.toNat, ?_, ?_, ?_, ?_⟩
    · unfold calculateEMA
      rw [if_neg hne, if_neg (by omega)]
    · simp only [emaCore, List.length_scanl, List.length_drop]
      omega
    · rw [emaCore, List.getElem?_scanl_zero]
      congr 1
      rw [mean, List.length_take,
        Nat.min_eq_left (by omega : period.toNat ≤ prices.length)]
    · intro k hk
      have hlen : (emaCore prices period.toNat).length
          = (prices.drop period.toNat).length + 1 := by
        rw [emaCore, List.length_scanl]
      have hk' : k < (prices.drop period.toNat).length := by omega
      have hkd : period.toNat + k < prices.length := by
        rw [List.length_drop] at hk'
        omega
      have hstep : (emaCore prices period.toNat).getD (k + 1) 0
          = ((prices.drop period.toNat).getD k 0
              - (emaCore prices period.toNat).getD k 0)
            * (2 / ((period.toNat : ℚ) + 1))
            + (emaCore prices period.toNat).getD k 0 := by
        rw [emaCore]
        exact scanl_getD_succ _ _ _ 0 0 k hk'
      rw [List.getElem?_eq_getElem (show k + 1 < _ by omega),
        ← List.getD_eq_getElem _ 0 (show k + 1 < _ by omega), hstep,
        getD_drop _ _ _ _ hkd, hcast]
  · refine ⟨[2, 3, 4], ?_, rfl, rfl⟩
    unfold calculateEMA
    rw [if_neg (by decide), if_neg (by decide)]
    show Except.ok (emaCore [1, 2, 3, 4, 5] 3) = _
    norm_num [emaCore, List.scanl]

theorem ema_spec_witness :
    0 < (3 : ℤ) ∧ (3 : ℤ) ≤ (([1, 2, 3, 4, 5] : List ℚ).length : ℤ) ∧
    (∃ out, calculateEMA [1, 2, 3, 4, 5] 3 = .ok out ∧
      (out.length : ℤ) = (([1, 2, 3, 4, 5] : List ℚ).length : ℤ) - 3 + 1 ∧
      out[0]? = some (mean (([1, 2, 3, 4, 5] : List ℚ).take (3 : ℤ).toNat)) ∧
      ∀ k : ℕ, k + 1 < out.length →
        out[k + 1]? = some ((([1, 2, 3, 4, 5] : List ℚ).getD ((3 : ℤ).toNat + k) 0
          - out.getD k 0) * (2 / (((3 : ℤ) : ℚ) + 1)) + out.getD k 0)) :=
  ⟨by decide, by decide, ema_spec.1 [1, 2, 3, 4, 5] 3 (by decide) (by decide)⟩

theorem priceChanges_length (prices : List ℚ) :
    (priceChanges prices).length = prices.length - 1 := by
  simp only [priceChanges, List.length_map, List.length_zip, List.length_drop]
  omega

theorem priceChanges_getElem? (prices : List ℚ) (i : ℕ) (h : i + 1 < prices.length) :
    (priceChanges prices)[i]? = some (prices.getD (i + 1) 0 - prices.getD i 0) := by
  have hi : i < prices.length := by omega
  have h1i : 1 + i < prices.length := by omega
  have hz : (prices.zip (prices.drop 1))[i]?
      = some (prices.getD i 0, prices.getD (i + 1) 0) := by
    rw [List.getElem?_zip_eq_some]
    refine ⟨?_, ?_⟩
    · rw [List.getD_eq_getElem _ _ hi, List.getElem?_eq_getElem hi]
    · rw [List.getElem?_drop, Nat.add_comm 1 i,
        List.getElem?_eq_getElem (show i + 1 < prices.length from h),
        List.getD_eq_getElem _ _ h]
  rw [priceChanges, List.getElem?_map, hz]
  rfl

theorem change_pos_of_increasing (prices : List ℚ)
    (hinc : ∀ i : ℕ, i + 1 < prices.length →
      prices.getD i 0 < prices.getD (i + 1) 0) :
    ∀ c ∈ priceChanges prices, 0 < c := by
  intro c hc
  rw [List.mem_iff_getElem?] at hc
  obtain ⟨i, hi⟩ := hc
  have hilt : i < (priceChanges prices).length := by
    by_contra hge
    rw [List.getElem?_eq_none (by omega)] at hi
    exact Option.noConfusion hi
  rw [priceChanges_length] at hilt
  have h1 : i + 1 < prices.length := by omega
  rw [priceChanges_getElem? prices i h1] at hi
  have := hinc i h1
  cases hi
  linarith

theorem lossesOf_zero_of_increasing (prices : List ℚ)
    (hinc : ∀ i : ℕ, i + 1 < prices.length →
      prices.getD i 0 < prices.getD (i + 1) 0) :
    ∀ x ∈ lossesOf prices, x = 0 := by
  intro x hx
  rw [lossesOf, List.mem_map] at hx
  obtain ⟨c, hc, rfl⟩ := hx
  rw [if_neg (not_lt.mpr (change_pos_of_increasing prices hinc c hc).le)]

/-- Claim C3: on every valid input, every window whose losses are all zero
(in particular every window of a strictly increasing price series) yields
exactly `100`, with the division-by-zero case short-circuited by the
`avgLoss == 0` branch, and every window with nonzero average loss yields
`100 - 100/(1 + avgGain/avgLoss)` where the averages are plain
sliding-window means of the day-over-day gains and losses. -/
theorem rsi_spec :
    ∀ (prices : List ℚ) (period : ℤ), 0 < period →
      period ≤ (prices.length : ℤ) - 1 →
      ∃ out, calculateRSI prices period = .ok out ∧
        (∀ k : ℕ, k < out.length →
          ((∀ x ∈ ((lossesOf prices).drop k).take period.toNat, x = 0) →
            out[k]? = some 100) ∧
          (mean (((lossesOf prices).drop k).take period.toNat) ≠ 0 →
            out[k]? = some (100 - 100 /
              (1 + mean (((gainsOf prices).drop k).take period.toNat)
                / mean (((lossesOf prices).drop k).take period.toNat))))) ∧
        ((∀ i : ℕ, i + 1 < prices.length →
            prices.getD i 0 < prices.getD (i + 1) 0) →
          ∀ v ∈ out, v = 100) := by
  intro prices period h1 h2
  have hne : prices ≠ [] := by
    intro h
    subst h
    simp only [List.length_nil, Nat.cast_zero] at h2
    omega
  have hglen : (gainsOf prices).length = prices.length - 1 := by
    rw [gainsOf, List.length_map, priceChanges_length]
  have hllen : (lossesOf prices).length = prices.length - 1 := by
    rw [lossesOf, List.length_map, priceChanges_length]
  refine ⟨rsiCore prices period.toNat, ?_, ?_, ?_⟩
  · unfold calculateRSI
    rw [if_neg hne, if_neg (by omega)]
  · intro k hk
    rw [rsiCore, List.length_map, List.length_range] at hk
    have hkg : k < (gainsOf prices).length + 1 - period.toNat := by omega
    have hkl : k < (lossesOf prices).length + 1 - period.toNat := by omega
    have hgw := window_length (gainsOf prices) period.toNat k hkg
    have hlw := window_length (lossesOf prices) period.toNat k hkl
    constructor
    · intro hz
      rw [rsiCore, getElem?_map_range _ hk,
        if_pos (by rw [List.sum_eq_zero hz, zero_div])]
    · intro hnz
      have hmean : mean (((lossesOf prices).drop k).take period.toNat)
          = (((lossesOf prices).drop k).take period.toNat).sum / (period.toNat : ℚ) := by
        rw [mean, hlw]
      have hmeang : mean (((gainsOf prices).drop k).take period.toNat)
          = (((gainsOf prices).drop k).take period.toNat).sum / (period.toNat : ℚ) := by
        rw [mean, hgw]
      rw [rsiCore, getElem?_map_range _ hk, if_neg (by rw [← hmean]; exact hnz),
        hmean, hmeang]
  · intro hinc v hv
    rw [rsiCore, List.mem_map] at hv
    obtain ⟨k, _, rfl⟩ := hv
    rw [if_pos]
    rw [List.sum_eq_zero, zero_div]
    intro x hx
    exact lossesOf_zero_of_increasing prices hinc x
      (List.mem_of_mem_drop (List.mem_of_mem_take hx))

theorem rsi_spec_witness :
    0 < (2 : ℤ) ∧ (2 : ℤ) ≤ (([1, 2, 3, 4, 5] : List ℚ).length : ℤ) - 1 ∧
    (∃ out, calculateRSI [1, 2, 3, 4, 5] 2 = .ok out ∧
      (∀ k : ℕ, k < out.length →
        ((∀ x ∈ ((lossesOf [1, 2, 3, 4, 5]).drop k).take (2 : ℤ).toNat, x = 0) →
          out[k]? = some 100) ∧
        (mean (((lossesOf [1, 2, 3, 4, 5]).drop k).take (2 : ℤ).toNat) ≠ 0 →
          out[k]? = some (100 - 100 /
            (1 + mean (((gainsOf [1, 2, 3, 4, 5]).drop k).take (2 : ℤ).toNat)
              / mean (((lossesOf [1, 2, 3, 4, 5]).drop k).take (2 : ℤ).toNat))))) ∧
      ((∀ i : ℕ, i + 1 < ([1, 2, 3, 4, 5] : List ℚ).length →
          ([1, 2, 3, 4, 5] : List ℚ).getD i 0 < ([1, 2, 3, 4, 5] : List ℚ).getD (i + 1) 0) →
        ∀ v ∈ out, v = 100)) :=
  ⟨by decide, by decide, rsi_spec [1, 2, 3, 4, 5] 2 (by decide) (by decide)⟩

/-- Claim C4 counterexample: with `prices = [1,2,3]` and
`period = 2 = len - 1`, `calculateRSI` does not reject the period; it
succeeds and returns an empty output, because the source guard is
`period > prices.length - 1`, not `period >= prices.length - 1`. -/
theorem rsi_boundary_cex :
    (2 : ℤ) = (([1, 2, 3] : List ℚ).length : ℤ) - 1 ∧
    calculateRSI [1, 2, 3] 2 ≠ .error .invalidPeriod ∧
    calculateRSI [1, 2, 3] 2 = .ok [] := by
  refine ⟨by decide, ?_, ?_⟩ <;> decide

/-- Claim C4 (amended): for a nonempty price series, `calculateRSI` fails
with `InvalidPeriod` exactly when `period <= 0` or
`period >= len(prices)` (the source guard is `period > len(prices) - 1`);
at `period = len(prices) - 1` it instead succeeds and produces an empty
output. -/
theorem rsi_period_validation :
    ∀ (prices : List ℚ) (period : ℤ), prices ≠ [] →
      ((calculateRSI prices period = .error .invalidPeriod ↔
        period ≤ 0 ∨ (prices.length : ℤ) ≤ period) ∧
      (0 < period → period = (prices.length : ℤ) - 1 →
        calculateRSI prices period = .ok [])) := by
  intro prices period hne
  have hlen1 : 1 ≤ prices.length := by
    cases prices
    · exact absurd rfl hne
    · simp
  constructor
  · unfold calculateRSI
    rw [if_neg hne]
    split_ifs with h
    · exact ⟨fun _ => by omega, fun _ => rfl⟩
    · constructor
      · intro hcontra
        exact absurd hcontra (by simp)
      · intro hrhs
        exact absurd hrhs (by omega)
  · intro hp hval
    unfold calculateRSI
    rw [if_neg hne, if_neg (by omega)]
    have hg : (gainsOf prices).length = prices.length - 1 := by
      rw [gainsOf, List.length_map, priceChanges_length]
    rw [rsiCore, show (gainsOf prices).length - period.toNat = 0 by omega,
      List.range_zero, List.map_nil]

theorem rsi_period_validation_witness :
    ([1, 2, 3] : List ℚ) ≠ [] ∧
    ((calculateRSI [1, 2, 3] 2 = .error .invalidPeriod ↔
      (2 : ℤ) ≤ 0 ∨ (([1, 2, 3] : List ℚ).length : ℤ) ≤ 2) ∧
    (0 < (2 : ℤ) → (2 : ℤ) = (([1, 2, 3] : List ℚ).length : ℤ) - 1 →
      calculateRSI [1, 2, 3] 2 = .ok [])) :=
  ⟨by decide, rsi_period_validation [1, 2, 3] 2 (by decide)⟩

/-- The intermediate (untrimmed) MACD line (functions.js:1129-1136): fast
EMA minus slow EMA, elementwise over the slow EMA's indices, with the fast
EMA shifted by `slowPeriod - fastPeriod` for alignment. -/
def macdLineOf (prices : List ℚ) (fast slow : ℕ) : List ℚ :=
  (List.range (emaCore prices slow).length).map (fun i =>
    (emaCore prices fast).getD (i + (slow - fast)) 0
      - (emaCore prices slow).getD i 0)

/-- The signal line (functions.js:1144): an EMA of the MACD line. -/
def signalLineOf (prices : List ℚ) (fast slow signal : ℕ) : List ℚ :=
  emaCore (macdLineOf prices fast slow) signal

/-- The histogram (functions.js:1148-1153): MACD line minus signal line,
with the MACD line shifted by the length difference `histOffset`. -/
def histogramOf (prices : List ℚ) (fast slow signal : ℕ) : List ℚ :=
  (List.range (signalLineOf prices fast slow signal).length).map (fun i =>
    (macdLineOf prices fast slow).getD
      (i + ((macdLineOf prices fast slow).length
        - (signalLineOf prices fast slow signal).length)) 0
      - (signalLineOf prices fast slow signal).getD i 0)

/-- `calculateMACD` (functions.js:1105-1163): the validation chain in
source order, then the three channels trimmed to the shortest of the
histogram and signal-line lengths. -/
def calculateMACD (prices : List ℚ) (fast slow signal : ℤ) :
    Except CalcError (List ℚ × List ℚ × List ℚ) :=
  if prices = [] then .error .emptySeries
  else if fast ≤ 0 ∨ slow ≤ 0 ∨ signal ≤ 0 then .error .invalidPeriod
  else if slow ≤ fast then .error .invalidOrdering
  else if (prices.length : ℤ) ≤ slow then .error .insufficientData
  else if ((macdLineOf prices fast.toNat slow.toNat).length : ℤ) < signal then
    .error .insufficientData
  else
    let macdLine := macdLineOf prices fast.toNat slow.toNat
    let signalLine := signalLineOf prices fast.toNat slow.toNat signal.toNat
    let histogram := histogramOf prices fast.toNat slow.toNat signal.toNat
    let minLength := min histogram.length signalLine.length
    .ok (macdLine.drop (macdLine.length - minLength),
      signalLine.take minLength, histogram.take minLength)

/-- Claim C5: for a nonempty price series the `calculateMACD` validation
chain fails with `InvalidPeriod` when any period is non-positive, with
`InvalidOrdering` when (the periods being positive) `slowPeriod <=
fastPeriod`, and with `InsufficientData` when `len(prices) <= slowPeriod`
or when the intermediate MACD line is shorter than `signalPeriod`; on
every input meeting one of these conditions it produces an error value,
never a numeric result. -/
theorem macd_validation :
    ∀ (prices : List ℚ) (fast slow signal : ℤ),
      (prices ≠ [] →
        ((fast ≤ 0 ∨ slow ≤ 0 ∨ signal ≤ 0 →
          calculateMACD prices fast slow signal = .error .invalidPeriod) ∧
        (0 < fast → 0 < slow → 0 < signal → slow ≤ fast →
          calculateMACD prices fast slow signal = .error .invalidOrdering) ∧
        (0 < fast → 0 < slow → 0 < signal → fast < slow →
          (prices.length : ℤ) ≤ slow →
          calculateMACD prices fast slow signal = .error .insufficientData) ∧
        (0 < fast → 0 < slow → 0 < signal → fast < slow →
          slow < (prices.length : ℤ) →
          ((macdLineOf prices fast.toNat slow.toNat).length : ℤ) < signal →
          calculateMACD prices fast slow signal = .error .insufficientData))) ∧
      ((fast ≤ 0 ∨ slow ≤ 0 ∨ signal ≤ 0) ∨ slow ≤ fast ∨
          (prices.length : ℤ) ≤ slow ∨
          ((macdLineOf prices fast.toNat slow.toNat).length : ℤ) < signal →
        ∃ e, calculateMACD prices fast slow signal = .error e) := by
  intro prices fast slow signal
  constructor
  · intro hne
    refine ⟨?_, ?_, ?_, ?_⟩
    · intro h
      unfold calculateMACD
      rw [if_neg hne, if_pos h]
    · intro h1 h2 h3 h4
      unfold calculateMACD
      rw [if_neg hne, if_neg (by omega), if_pos h4]
    · intro h1 h2 h3 h4 h5
      unfold calculateMACD
      rw [if_neg hne, if_neg (by omega), if_neg (by omega), if_pos h5]
    · intro h1 h2 h3 h4 h5 h6
      unfold calculateMACD
      rw [if_neg hne, if_neg (by omega), if_neg (by omega), if_neg (by omega),
        if_pos h6]
  · intro hdisj
    unfold calculateMACD
    split_ifs with h0 h1 h2 h3 h4
    · exact ⟨_, rfl⟩
    · exact ⟨_, rfl⟩
    · exact ⟨_, rfl⟩
    · exact ⟨_, rfl⟩
    · exact ⟨_, rfl⟩
    · exfalso
      omega

theorem macd_validation_witness :
    ([1, 2, 3] : List ℚ) ≠ [] ∧
    ((12 : ℤ) ≤ 26 ∨ (([1, 2, 3] : List ℚ).length : ℤ) ≤ 12 ∨
      ((macdLineOf [1, 2, 3] (26 : ℤ).toNat (12 : ℤ).toNat).length : ℤ) < 9 ∨
      (26 : ℤ) ≤ 0 ∨ (12 : ℤ) ≤ 0 ∨ (9 : ℤ) ≤ 0) ∧
    (0 < (26 : ℤ) → 0 < (12 : ℤ) → 0 < (9 : ℤ) → (12 : ℤ) ≤ 26 →
      calculateMACD [1, 2, 3] 26 12 9 = .error .invalidOrdering) ∧
    (∃ e, calculateMACD [1, 2, 3] 26 12 9 = .error e) :=
  ⟨by decide, Or.inl (by decide),
    fun a b c d =>
      ((macd_validation [1, 2, 3] 26 12 9).1 (by decide)).2.1 a b c d,
    (macd_validation [1, 2, 3] 26 12 9).2 (Or.inr (Or.inl (by decide)))⟩

/-- Claim C6: whenever `calculateMACD` succeeds, the three returned
channels have the same length, that common length equals
`min (len histogram) (len signalLine)` for the untrimmed intermediate
histogram and signal line, and it is at most the length of the untrimmed
intermediate MACD line. -/
theorem macd_lengths :
    ∀ (prices : List ℚ) (fast slow signal : ℤ) (m s t : List ℚ),
      calculateMACD prices fast slow signal = .ok (m, s, t) →
      m.length = t.length ∧ s.length = t.length ∧
      t.length = min (histogramOf prices fast.toNat slow.toNat signal.toNat).length
        (signalLineOf prices fast.toNat slow.toNat signal.toNat).length ∧
      t.length ≤ (macdLineOf prices fast.toNat slow.toNat).length := by
  intro prices fast slow signal m s t hok
  unfold calculateMACD at hok
  split_ifs at hok with h1 h2 h3 h4 h5
  simp only [Except.ok.injEq, Prod.mk.injEq] at hok
  obtain ⟨hm, hs, ht⟩ := hok
  subst hm hs ht
  have hhist : (histogramOf prices fast.toNat slow.toNat signal.toNat).length
      = (signalLineOf prices fast.toNat slow.toNat signal.toNat).length := by
    rw [histogramOf, List.length_map, List.length_range]
  have hsig : (signalLineOf prices fast.toNat slow.toNat signal.toNat).length
      ≤ (macdLineOf prices fast.toNat slow.toNat).length := by
    rw [signalLineOf, emaCore, List.length_scanl, List.length_drop]
    omega
  refine ⟨?_, ?_, ?_, ?_⟩ <;>
    simp only [List.length_drop, List.length_take, hhist, min_self] <;>
    omega

theorem macd_lengths_witness :
    calculateMACD [1, 2, 3] 1 2 1
        = .ok ([1/2, 1/2], [1/2, 1/2], [0, 0]) ∧
    (([1/2, 1/2] : List ℚ).length = ([0, 0] : List ℚ).length ∧
      ([1/2, 1/2] : List ℚ).length = ([0, 0] : List ℚ).length ∧
      ([0, 0] : List ℚ).length
        = min (histogramOf [1, 2, 3] (1 : ℤ).toNat (2 : ℤ).toNat (1 : ℤ).toNat).length
          (signalLineOf [1, 2, 3] (1 : ℤ).toNat (2 : ℤ).toNat (1 : ℤ).toNat).length ∧
      ([0, 0] : List ℚ).length
        ≤ (macdLineOf [1, 2, 3] (1 : ℤ).toNat (2 : ℤ).toNat).length) := by
  have hok : calculateMACD [1, 2, 3] 1 2 1
      = .ok ([1/2, 1/2], [1/2, 1/2], [0, 0]) := by
    norm_num [calculateMACD, macdLineOf, signalLineOf, histogramOf, emaCore,
      List.scanl, List.range_succ, show (2 : ℤ).toNat = 2 from rfl,
      show (1 : ℤ).toNat = 1 from rfl]
    intro h
    exact absurd h (by decide)
  exact ⟨hok, macd_lengths [1, 2, 3] 1 2 1 _ _ _ hok⟩

theorem getD_map_range {α : Type} [Inhabited α] (f : ℕ → α) (d : α)
    {n j : ℕ} (hj : j < n) :
    ((List.range n).map f).getD j d = f j := by
  rw [List.getD_eq_getElem?_getD, getElem?_map_range f hj]
  rfl

theorem histogramOf_length (prices : List ℚ) (fast slow signal : ℕ) :
    (histogramOf prices fast slow signal).length
      = (signalLineOf prices fast slow signal).length := by
  rw [histogramOf, List.length_map, List.length_range]

theorem signalLineOf_length_le (prices : List ℚ) (fast slow signal : ℕ)
    (h1 : 1 ≤ signal) (h2 : signal ≤ (macdLineOf prices fast slow).length) :
    (signalLineOf prices fast slow signal).length
      ≤ (macdLineOf prices fast slow).length := by
  rw [signalLineOf, emaCore, List.length_scanl, List.length_drop]
  omega

theorem histogramOf_getD (prices : List ℚ) (fast slow signal i : ℕ)
    (hi : i < (signalLineOf prices fast slow signal).length) :
    (histogramOf prices fast slow signal).getD i 0
      = (macdLineOf prices fast slow).getD
          (i + ((macdLineOf prices fast slow).length
            - (signalLineOf prices fast slow signal).length)) 0
        - (signalLineOf prices fast slow signal).getD i 0 := by
  rw [histogramOf, getD_map_range _ _ hi]

/-- Claim C10: whenever `calculateMACD` succeeds, the returned trimmed
channels satisfy `histogram[i] = macdLine[i] - signalLine[i]` at every
index `i` of the returned arrays: trimming preserves the defining
difference relation. -/
theorem macd_histogram_diff :
    ∀ (prices : List ℚ) (fast slow signal : ℤ) (m s t : List ℚ),
      calculateMACD prices fast slow signal = .ok (m, s, t) →
      ∀ i : ℕ, i < t.length → t.getD i 0 = m.getD i 0 - s.getD i 0 := by
  intro prices fast slow signal m s t hok i hi
  unfold calculateMACD at hok
  split_ifs at hok with h1 h2 h3 h4 h5
  simp only [Except.ok.injEq, Prod.mk.injEq] at hok
  obtain ⟨hm, hs, ht⟩ := hok
  have hhist := histogramOf_length prices fast.toNat slow.toNat signal.toNat
  have hsig := signalLineOf_length_le prices fast.toNat slow.toNat signal.toNat
    (by omega) (by omega)
  have hmin : min (histogramOf prices fast.toNat slow.toNat signal.toNat).length
        (signalLineOf prices fast.toNat slow.toNat signal.toNat).length
      = (signalLineOf prices fast.toNat slow.toNat signal.toNat).length := by
    omega
  rw [hmin] at hm hs ht
  subst hm hs ht
  rw [List.length_take, hhist, min_self] at hi
  rw [List.take_length]
  rw [List.getD_eq_getElem?_getD, List.getElem?_take, if_pos hi,
    ← List.getD_eq_getElem?_getD, histogramOf_getD _ _ _ _ _ hi,
    getD_drop _ _ _ _ (by omega),
    Nat.add_comm ((macdLineOf prices fast.toNat slow.toNat).length
      - (signalLineOf prices fast.toNat slow.toNat signal.toNat).length) i]

theorem macd_histogram_diff_witness :
    calculateMACD [1, 2, 3] 1 2 1
        = .ok ([1/2, 1/2], [1/2, 1/2], [0, 0]) ∧
    (∀ i : ℕ, i < ([0, 0] : List ℚ).length →
      ([0, 0] : List ℚ).getD i 0
        = ([1/2, 1/2] : List ℚ).getD i 0 - ([1/2, 1/2] : List ℚ).getD i 0) := by
  have hok : calculateMACD [1, 2, 3] 1 2 1
      = .ok ([1/2, 1/2], [1/2, 1/2], [0, 0]) := by
    norm_num [calculateMACD, macdLineOf, signalLineOf, histogramOf, emaCore,
      List.scanl, List.range_succ, show (2 : ℤ).toNat = 2 from rfl,
      show (1 : ℤ).toNat = 1 from rfl]
    intro h
    exact absurd h (by decide)
  exact ⟨hok, macd_histogram_diff [1, 2, 3] 1 2 1 _ _ _ hok⟩

/-- The price window ending at input index `j + p - 1` (the slice
`prices.slice(i - period + 1, i + 1)` of functions.js:4015 with
`j = i - period + 1`). -/
def windowOf (prices : List ℝ) (p j : ℕ) : List ℝ := (prices.drop j).take p

/-- Window SMA of `getBollingerBands` (functions.js:4016): window sum
divided by `period`. -/
noncomputable def smaOf (w : List ℝ) (p : ℕ) : ℝ := w.sum / p

/-- Window variance of `getBollingerBands` (functions.js:4018-4019): mean
of squared deviations from the window SMA, divisor `period`. -/
noncomputable def popVarOf (w : List ℝ) (p : ℕ) : ℝ :=
  (w.map (fun price => (price - smaOf w p) ^ 2)).sum / p

/-- Numeric core of the `getBollingerBands` window loop
(functions.js:4014-4031), one `(middle, upper, lower)` row per window
ending at index `i >= period - 1` (output position `j = i - period + 1`).
The source's `Math.sqrt` is the `sqrtFn` parameter; the claims instantiate
it with the real square root. -/
noncomputable def bollingerRows (sqrtFn : ℝ → ℝ) (prices : List ℝ) (p : ℕ) (mult : ℝ) :
    List (ℝ × ℝ × ℝ) :=
  (List.range (prices.length + 1 - p)).map (fun j =>
    (smaOf (windowOf prices p j) p,
     smaOf (windowOf prices p j) p
       + sqrtFn (popVarOf (windowOf prices p j) p) * mult,
     smaOf (windowOf prices p j) p
       - sqrtFn (popVarOf (windowOf prices p j) p) * mult))

/-- Claim C7: every computed Bollinger window yields
`middle = mean(window)`, `upper = middle + sqrt(popVariance) * mult`,
`lower = middle - sqrt(popVariance) * mult` (population variance, divisor
`period`), and for `mult >= 0` the bands are ordered
`lower <= middle <= upper`. -/
theorem bollinger_spec :
    ∀ (prices : List ℝ) (p : ℕ) (mult : ℝ), 0 < p → 0 ≤ mult →
      ∀ j : ℕ, j < (bollingerRows Real.sqrt prices p mult).length →
        ∃ row, (bollingerRows Real.sqrt prices p mult)[j]? = some row ∧
          row.1 = mean (windowOf prices p j) ∧
          row.2.1 = row.1 + Real.sqrt (popVarOf (windowOf prices p j) p) * mult ∧
          row.2.2 = row.1 - Real.sqrt (popVarOf (windowOf prices p j) p) * mult ∧
          row.2.2 ≤ row.1 ∧ row.1 ≤ row.2.1 := by
  intro prices p mult hp hmult j hj
  rw [bollingerRows, List.length_map, List.length_range] at hj
  have hw : (windowOf prices p j).length = p := window_length prices p j hj
  have hnn : 0 ≤ Real.sqrt (popVarOf (windowOf prices p j) p) * mult :=
    mul_nonneg (Real.sqrt_nonneg _) hmult
  refine ⟨_, by rw [bollingerRows, getElem?_map_range _ hj], ?_, rfl, rfl, ?_, ?_⟩
  · show smaOf (windowOf prices p j) p = mean (windowOf prices p j)
    rw [smaOf, mean, hw]
  · show smaOf (windowOf prices p j) p
        - Real.sqrt (popVarOf (windowOf prices p j) p) * mult ≤ _
    linarith
  · show smaOf (windowOf prices p j) p
        ≤ smaOf (windowOf prices p j) p
          + Real.sqrt (popVarOf (windowOf prices p j) p) * mult
    linarith

theorem bollinger_spec_witness :
    0 < 1 ∧ (0 : ℝ) ≤ 2 ∧
    (∀ j : ℕ, j < (bollingerRows Real.sqrt [1, 1] 1 2).length →
      ∃ row, (bollingerRows Real.sqrt [1, 1] 1 2)[j]? = some row ∧
        row.1 = mean (windowOf [1, 1] 1 j) ∧
        row.2.1 = row.1 + Real.sqrt (popVarOf (windowOf [1, 1] 1 j) 1) * 2 ∧
        row.2.2 = row.1 - Real.sqrt (popVarOf (windowOf [1, 1] 1 j) 1) * 2 ∧
        row.2.2 ≤ row.1 ∧ row.1 ≤ row.2.1) :=
  ⟨Nat.one_pos, by norm_num,
    bollinger_spec [1, 1] 1 2 Nat.one_pos (by norm_num)⟩

/-- One OHLC bar as consumed by the ATR code: the `h`, `l`, `c` fields of
a provider bar. -/
structure Bar where
  h : ℚ
  l : ℚ
  c : ℚ
deriving DecidableEq, Repr, Inhabited

/-- True range of a bar against the previous close
(functions.js:4085-4089): `max(high - low, |high - prevClose|,
|low - prevClose|)`. -/
def trueRangeOf (prevClose : ℚ) (b : Bar) : ℚ :=
  max (b.h - b.l) (max |b.h - prevClose| |b.l - prevClose|)

/-- The true-range series of `getATR` (functions.js:4079-4091): one value
per index `i = 1 .. len-1`, pairing each bar with its predecessor. -/
def trueRanges (bars : List Bar) : List ℚ :=
  (bars.zip (bars.drop 1)).map (fun pr => trueRangeOf pr.1.c pr.2)

/-- The Wilder smoothing step of `getATR` (functions.js:4098):
`atr = ((atr * (period - 1)) + tr) / period`. -/
def wilderStep (p : ℕ) (atr tr : ℚ) : ℚ := (atr * ((p : ℚ) - 1) + tr) / p

/-- The ATR value sequence of `getATR` (functions.js:4093-4101): the seed
is the simple mean of the first `period` true ranges, each later value is
one Wilder step. -/
def atrSeq (bars : List Bar) (p : ℕ) : List ℚ :=
  ((trueRanges bars).drop p).scanl (wilderStep p)
    (((trueRanges bars).take p).sum / p)

theorem trueRanges_length (bars : List Bar) :
    (trueRanges bars).length = bars.length - 1 := by
  simp only [trueRanges, List.length_map, List.length_zip, List.length_drop]
  omega

theorem trueRanges_getElem? (bars : List Bar) (i : ℕ) (h : i + 1 < bars.length) :
    (trueRanges bars)[i]?
      = some (trueRangeOf (bars.getD i default).c (bars.getD (i + 1) default)) := by
  have hi : i < bars.length := by omega
  have hz : (bars.zip (bars.drop 1))[i]?
      = some (bars.getD i default, bars.getD (i + 1) default) := by
    rw [List.getElem?_zip_eq_some]
    refine ⟨?_, ?_⟩
    · rw [List.getD_eq_getElem _ _ hi, List.getElem?_eq_getElem hi]
    · rw [List.getElem?_drop, Nat.add_comm 1 i,
        List.getElem?_eq_getElem (show i + 1 < bars.length from h),
        List.getD_eq_getElem _ _ h]
  rw [trueRanges, List.getElem?_map, hz]
  rfl

/-- Claim C8: for every bar series with at least `period + 1` bars, the
true range at each index `i >= 1` is
`max(high[i] - low[i], |high[i] - close[i-1]|, |low[i] - close[i-1]|)`,
the first ATR output is the simple mean of the first `period` true-range
values, and every later output follows the Wilder recurrence
`atr[k+1] = (atr[k] * (period - 1) + tr[period + k]) / period`. -/
theorem atr_spec :
    ∀ (bars : List Bar) (p : ℕ), 0 < p → p + 1 ≤ bars.length →
      (∀ i : ℕ, 1 ≤ i → i < bars.length →
        (trueRanges bars)[i - 1]?
          = some (max ((bars.getD i default).h - (bars.getD i default).l)
              (max |(bars.getD i default).h - (bars.getD (i - 1) default).c|
                |(bars.getD i default).l - (bars.getD (i - 1) default).c|))) ∧
      (atrSeq bars p)[0]? = some (mean ((trueRanges bars).take p)) ∧
      (∀ k : ℕ, k + 1 < (atrSeq bars p).length →
        (atrSeq bars p)[k + 1]?
          = some (((atrSeq bars p).getD k 0 * ((p : ℚ) - 1)
              + (trueRanges bars).getD (p + k) 0) / p)) := by
  intro bars p hp hlen
  have htrlen : (trueRanges bars).length = bars.length - 1 :=
    trueRanges_length bars
  refine ⟨?_, ?_, ?_⟩
  · intro i h1 h2
    obtain ⟨j, rfl⟩ : ∃ j, i = j + 1 := ⟨i - 1, by omega⟩
    simp only [Nat.add_sub_cancel]
    rw [trueRanges_getElem? bars j (by omega)]
    rfl
  · rw [atrSeq, List.getElem?_scanl_zero, mean, List.length_take,
      htrlen, Nat.min_eq_left (by omega)]
  · intro k hk
    have hlen2 : (atrSeq bars p).length
        = ((trueRanges bars).drop p).length + 1 := by
      rw [atrSeq, List.length_scanl]
    have hk' : k < ((trueRanges bars).drop p).length := by omega
    have hkd : p + k < (trueRanges bars).length := by
      rw [List.length_drop] at hk'
      omega
    have hstep : (atrSeq bars p).getD (k + 1) 0
        = wilderStep p ((atrSeq bars p).getD k 0)
            (((trueRanges bars).drop p).getD k 0) := by
      rw [atrSeq]
      exact scanl_getD_succ _ _ _ 0 0 k hk'
    rw [List.getElem?_eq_getElem (show k + 1 < _ by omega),
      ← List.getD_eq_getElem _ 0 (show k + 1 < _ by omega), hstep,
      getD_drop _ _ _ _ hkd, wilderStep]

theorem atr_spec_witness :
    0 < 1 ∧ 1 + 1 ≤ ([⟨2, 1, 3/2⟩, ⟨2, 1, 3/2⟩] : List Bar).length ∧
    ((∀ i : ℕ, 1 ≤ i → i < ([⟨2, 1, 3/2⟩, ⟨2, 1, 3/2⟩] : List Bar).length →
      (trueRanges [⟨2, 1, 3/2⟩, ⟨2, 1, 3/2⟩])[i - 1]?
        = some (max ((([⟨2, 1, 3/2⟩, ⟨2, 1, 3/2⟩] : List Bar).getD i default).h
              - (([⟨2, 1, 3/2⟩, ⟨2, 1, 3/2⟩] : List Bar).getD i default).l)
            (max |(([⟨2, 1, 3/2⟩, ⟨2, 1, 3/2⟩] : List Bar).getD i default).h
                - (([⟨2, 1, 3/2⟩, ⟨2, 1, 3/2⟩] : List Bar).getD (i - 1) default).c|
              |(([⟨2, 1, 3/2⟩, ⟨2, 1, 3/2⟩] : List Bar).getD i default).l
                - (([⟨2, 1, 3/2⟩, ⟨2, 1, 3/2⟩] : List Bar).getD (i - 1) default).c|))) ∧
    (atrSeq [⟨2, 1, 3/2⟩, ⟨2, 1, 3/2⟩] 1)[0]?
        = some (mean ((trueRanges [⟨2, 1, 3/2⟩, ⟨2, 1, 3/2⟩]).take 1)) ∧
    (∀ k : ℕ, k + 1 < (atrSeq [⟨2, 1, 3/2⟩, ⟨2, 1, 3/2⟩] 1).length →
      (atrSeq [⟨2, 1, 3/2⟩, ⟨2, 1, 3/2⟩] 1)[k + 1]?
        = some (((atrSeq [⟨2, 1, 3/2⟩, ⟨2, 1, 3/2⟩] 1).getD k 0 * ((1 : ℚ) - 1)
            + (trueRanges [⟨2, 1, 3/2⟩, ⟨2, 1, 3/2⟩]).getD (1 + k) 0) / 1))) :=
  ⟨Nat.one_pos, by decide,
    atr_spec [⟨2, 1, 3/2⟩, ⟨2, 1, 3/2⟩] 1 Nat.one_pos (by decide)⟩

theorem scanl_all_eq {α β : Type} (f : β → α → β) (r : β) :
    ∀ l : List α, (∀ a ∈ l, f r a = r) → ∀ b ∈ l.scanl f r, b = r := by
  intro l
  induction l with
  | nil =>
    intro _ b hb
    rw [List.scanl_nil, List.mem_singleton] at hb
    exact hb
  | cons a t ih =>
    intro hf b hb
    rw [List.scanl_cons, List.singleton_append, List.mem_cons] at hb
    rcases hb with hb | hb
    · exact hb
    · rw [hf a (List.mem_cons_self a t)] at hb
      exact ih (fun x hx => hf x (List.mem_cons_of_mem a hx)) b hb

/-- Claim C9: `r` is a fixed point of the Wilder step (`atr[i-1] = r` and
`tr[i] = r` give `atr[i] = (r*(period-1) + r)/period = r`); if every true
range including the seed window equals `r` then every ATR output equals
`r` exactly; and when every true range after the seed window equals `r`
the distance of the ATR sequence to `r` contracts by the factor
`(period-1)/period` at every step, which is the claimed convergence to
exactly `r`. -/
theorem atr_fixed_point :
    ∀ (bars : List Bar) (p : ℕ) (r : ℚ), 0 < p →
      (wilderStep p r r = r) ∧
      (p + 1 ≤ bars.length → (∀ tr ∈ trueRanges bars, tr = r) →
        ∀ a ∈ atrSeq bars p, a = r) ∧
      ((∀ tr ∈ (trueRanges bars).drop p, tr = r) →
        ∀ k : ℕ, k + 1 < (atrSeq bars p).length →
          (atrSeq bars p).getD (k + 1) 0 - r
            = (((p : ℚ) - 1) / p) * ((atrSeq bars p).getD k 0 - r)) := by
  intro bars p r hp
  have hpQ : ((p : ℚ)) ≠ 0 := Nat.cast_ne_zero.mpr (by omega)
  have hfix : wilderStep p r r = r := by
    rw [wilderStep]
    field_simp
    ring
  refine ⟨hfix, ?_, ?_⟩
  · intro hlen hall a ha
    have htrlen : (trueRanges bars).length = bars.length - 1 :=
      trueRanges_length bars
    have hseed : ((trueRanges bars).take p).sum / (p : ℚ) = r := by
      rw [List.sum_eq_card_nsmul ((trueRanges bars).take p) r
        (fun x hx => hall x (List.mem_of_mem_take hx)),
        List.length_take, Nat.min_eq_left (by omega), nsmul_eq_mul,
        mul_comm, mul_div_assoc, div_self hpQ, mul_one]
    rw [atrSeq, hseed] at ha
    refine scanl_all_eq (wilderStep p) r _ ?_ a ha
    intro x hx
    rw [hall x (List.mem_of_mem_drop hx)]
    exact hfix
  · intro hdrop k hk
    have hlen2 : (atrSeq bars p).length
        = ((trueRanges bars).drop p).length + 1 := by
      rw [atrSeq, List.length_scanl]
    have hk' : k < ((trueRanges bars).drop p).length := by omega
    have hstep : (atrSeq bars p).getD (k + 1) 0
        = wilderStep p ((atrSeq bars p).getD k 0)
            (((trueRanges bars).drop p).getD k 0) := by
      rw [atrSeq]
      exact scanl_getD_succ _ _ _ 0 0 k hk'
    have helem : ((trueRanges bars).drop p).getD k 0 = r := by
      rw [List.getD_eq_getElem _ _ hk']
      exact hdrop _ (List.getElem_mem hk')
    rw [hstep, helem, wilderStep]
    field_simp
    ring

theorem atr_fixed_point_witness :
    0 < 1 ∧ wilderStep 1 1 1 = 1 ∧
    (∀ a ∈ atrSeq [⟨2, 1, 3/2⟩, ⟨2, 1, 3/2⟩] 1, a = 1) :=
  ⟨Nat.one_pos,
    (atr_fixed_point [⟨2, 1, 3/2⟩, ⟨2, 1, 3/2⟩] 1 1 Nat.one_pos).1,
    (atr_fixed_point [⟨2, 1, 3/2⟩, ⟨2, 1, 3/2⟩] 1 1 Nat.one_pos).2.1
      (by decide)
      (by
        intro tr htr
        rw [show trueRanges [⟨2, 1, 3/2⟩, ⟨2, 1, 3/2⟩] = [1] by
            norm_num [trueRanges, trueRangeOf]
            rw [abs_of_nonneg (by norm_num : (0 : ℚ) ≤ 1/2)]
            norm_num,
          List.mem_singleton] at htr
        exact htr)⟩

end Polygon
